import Mathlib

/-!
# TeleSticker: a verified shallow embedding of `src/app.py`

This file embeds the media-conversion core of the TeleSticker application
(`src/app.py`): the dimension planner shared by `resize_image` and
`convert_video`, the ffprobe parse-with-fallback step, the bitrate-search
encode loop, and the per-asset containment discipline of
`TelegramStickerApp.processing_thread`.

CPython evaluates `512 / max(width, height)`, `width * ratio` and
`bitrate * 0.6` in IEEE-754 binary64 ("double") arithmetic.  To keep the
embedding faithful we model that arithmetic exactly: a positive double is a
dyadic rational `mantissa * 2 ^ exponent`, and rounding a positive rational to
the nearest double (round-to-nearest, ties-to-even; overflow and subnormals
are far outside the magnitudes this program produces) is implemented below
over plain `Nat`/`Int` arithmetic (`flN`), with its numerical properties
proved against `ℚ`.  The Python literal `0.6` denotes the double nearest to
`3/5`, i.e. `flN 3 5`.
-/

set_option maxRecDepth 8192

namespace TeleSticker

/-! ## Constants (src/app.py lines 12-18) -/

def MAX_IMAGE_SIZE : Nat := 512
def MAX_VIDEO_DURATION : Nat := 3
def MAX_VIDEO_SIZE_KB : Nat := 256
def ICON_SIZE : Nat := 100
def MAX_ICON_SIZE_KB : Nat := 32
def VIDEO_FPS : Nat := 30

/-! ## Exact model of positive binary64 arithmetic -/

/-- Number of binary digits of `n`; the first argument is fuel so that the
recursion is structural (any fuel `≥ n` gives the same value). -/
def nbitsA : Nat → Nat → Nat
  | 0, _ => 0
  | f + 1, n => if n = 0 then 0 else nbitsA f (n / 2) + 1

/-- Number of binary digits of `n`: for `n > 0`, `2 ^ (nbits n - 1) ≤ n < 2 ^ nbits n`. -/
def nbits (n : Nat) : Nat := nbitsA n n

/-- Decides `2 ^ c ≤ n / d` (as rationals, `d > 0`) in integer arithmetic. -/
def pow2le (c : Int) (n d : Nat) : Bool :=
  if 0 ≤ c then decide (d * 2 ^ c.toNat ≤ n) else decide (d ≤ n * 2 ^ (-c).toNat)

/-- Binary exponent of the positive rational `n / d`: the unique `e` with
`2 ^ e ≤ n / d < 2 ^ (e + 1)`. -/
def qexpN (n d : Nat) : Int :=
  let c : Int := (nbits n : Int) - (nbits d : Int)
  if pow2le c n d then c else c - 1

/-- Round the nonnegative rational `n / d` to the nearest integer,
ties to even. -/
def rheN (n d : Nat) : Nat :=
  let q := n / d
  let r := n % d
  if 2 * r < d then q
  else if d < 2 * r then q + 1
  else if q % 2 = 0 then q else q + 1

/-- Round the nonnegative rational `n / d` (`d > 0`) to the nearest binary64
value, returned as a dyadic `mantissa * 2 ^ exponent` pair. -/
def flN (n d : Nat) : Nat × Int :=
  if n = 0 then (0, 0)
  else
    let s := qexpN n d - 52
    if 0 ≤ s then (rheN n (d * 2 ^ s.toNat), s) else (rheN (n * 2 ^ (-s).toNat) d, s)

/-- The rational value of a dyadic pair. -/
def toQ (x : Nat × Int) : ℚ := (x.1 : ℚ) * 2 ^ x.2

/-- Correctly rounded binary64 product of two dyadic values. -/
def flMul (a b : Nat × Int) : Nat × Int :=
  let s := a.2 + b.2
  if 0 ≤ s then flN (a.1 * b.1 * 2 ^ s.toNat) 1 else flN (a.1 * b.1) (2 ^ (-s).toNat)

/-- Truncation `int(x)` of a nonnegative dyadic value, i.e. the floor. -/
def floorDy (x : Nat × Int) : Nat :=
  if 0 ≤ x.2 then x.1 * 2 ^ x.2.toNat else x.1 / 2 ^ (-x.2).toNat

/-! ## The dimension planner

`resize_image` (src/app.py lines 39-47) and `convert_video` (lines 89-100)
share the same computation: for icons a fixed `ICON_SIZE` square; otherwise
`ratio = MAX_IMAGE_SIZE / max(width, height)` followed by
`int(width * ratio)` and `int(height * ratio)`, all in double precision.
`convert_video` additionally bumps odd results to the next even integer
(lines 99-100); `resize_image` does not. -/

/-- One scaled dimension exactly as CPython computes it:
`int(d * (MAX_IMAGE_SIZE / m))` in binary64 (`flN d 1` is the exact
int-to-double conversion of `d`). -/
def scaledDim (d m : Nat) : Nat :=
  floorDy (flMul (flN d 1) (flN MAX_IMAGE_SIZE m))

/-- src/app.py lines 99-100: `new_width if new_width % 2 == 0 else new_width + 1`. -/
def roundUpEven (n : Nat) : Nat := if n % 2 = 0 then n else n + 1

/-- Target dimensions chosen by `resize_image` (src/app.py lines 39-47). -/
def imageTargetDims (is_icon : Bool) (width height : Nat) : Nat × Nat :=
  if is_icon then (ICON_SIZE, ICON_SIZE)
  else (scaledDim width (max width height), scaledDim height (max width height))

/-- Target dimensions chosen by `convert_video` (src/app.py lines 89-100). -/
def videoTargetDims (is_icon : Bool) (width height : Nat) : Nat × Nat :=
  if is_icon then (ICON_SIZE, ICON_SIZE)
  else (roundUpEven (scaledDim width (max width height)),
        roundUpEven (scaledDim height (max width height)))

/-! ## The bitrate-search encode loop (src/app.py lines 102-144)

The loop invokes ffmpeg up to five times.  The external encoder is modelled
as an oracle `enc : Nat → Option Nat` from the requested bitrate (the one
loop variable; the input path and target dimensions are fixed for the whole
loop) to the outcome of one invocation: `none` models the attempt raising an
exception (`check=True` turns a non-zero exit status into
`CalledProcessError`; a missing binary raises as well), which the
surrounding `try` turns into `return False`; `some s` models a successful
exit that wrote an artifact of `s` bytes.  The size test
`file_size_kb <= max_size_kb` with `file_size_kb = getsize(...) / 1024`
is exactly `s ≤ max_size_kb * 1024`: division by the power of two 1024 and
the comparison are exact in binary64 for any realistic file size. -/

/-- src/app.py line 104: `bitrate = 150 if is_icon else 300`. -/
def initialBitrate (is_icon : Bool) : Nat := if is_icon then 150 else 300

/-- src/app.py line 137: `bitrate = int(bitrate * 0.6)` in binary64;
the literal `0.6` is the double nearest `3/5`, namely `flN 3 5`. -/
def nextBitrate (b : Nat) : Nat := floorDy (flMul (flN b 1) (flN 3 5))

/-- src/app.py line 72: `max_size_kb = MAX_ICON_SIZE_KB if is_icon else MAX_VIDEO_SIZE_KB`. -/
def max_size_kb (is_icon : Bool) : Nat :=
  if is_icon then MAX_ICON_SIZE_KB else MAX_VIDEO_SIZE_KB

/-- The byte budget expressed by line 132's `file_size_kb <= max_size_kb`. -/
def maxOutputBytes (is_icon : Bool) : Nat := max_size_kb is_icon * 1024

/-- Observable outcome of one run of the `for attempt in range(5)` loop:
the bitrates actually passed to the encoder in order, whether an invocation
raised, and the byte size of the last artifact measured (0 when the very
first invocation raised; unused by `convert_video` in any raising run). -/
structure LoopOut where
  tried : List Nat
  crashed : Bool
  lastSize : Nat

/-- src/app.py lines 107-138.  `fuel` counts the attempts still allowed
after the current one; the top-level call uses `fuel = 4` for `range(5)`. -/
def convLoop (enc : Nat → Option Nat) (maxB : Nat) : Nat → Nat → LoopOut
  | b, fuel =>
    match enc b with
    | none => { tried := [b], crashed := true, lastSize := 0 }
    | some s =>
      if s ≤ maxB then { tried := [b], crashed := false, lastSize := s }
      else
        match fuel with
        | 0 => { tried := [b], crashed := false, lastSize := s }
        | f + 1 =>
          let r := convLoop enc maxB (nextBitrate b) f
          { tried := b :: r.tried, crashed := r.crashed, lastSize := r.lastSize }

/-- The whole bitrate search of `convert_video` for a given role. -/
def convRun (is_icon : Bool) (enc : Nat → Option Nat) : LoopOut :=
  convLoop enc (maxOutputBytes is_icon) (initialBitrate is_icon) 4

/-- Return value of `convert_video` (src/app.py lines 140-144): any raise
is caught and returns `False`; otherwise the result is
`os.path.exists(output_path) and file_size_kb <= max_size_kb`, and after at
least one successful invocation the artifact exists with the last measured
size. -/
def convert_video (is_icon : Bool) (enc : Nat → Option Nat) : Bool :=
  let r := convRun is_icon enc
  !r.crashed && decide (r.lastSize ≤ maxOutputBytes is_icon)

/-- The bitrate the loop uses on attempt `k` (0-based), if it gets there. -/
def bitrateAt (is_icon : Bool) (k : Nat) : Nat :=
  nextBitrate^[k] (initialBitrate is_icon)

/-! ## The probe parse step (src/app.py lines 74-87)

`subprocess.run` is invoked without `check=True`, so the ffprobe exit status
raises nothing and is never read; only `result.stdout` is consumed:
`result.stdout.strip().split(",")` followed by `int(...)` on the first two
fields, with `except (ValueError, IndexError)` substituting `(1280, 720)`.
Strings are modelled as their character lists; Python's `strip`/`int`
whitespace and digit sets are modelled in their ASCII range (ffprobe CSV
output is ASCII). -/

/-- Whitespace stripped by Python's `str.strip()` (ASCII range). -/
def pyWhitespace (c : Char) : Bool :=
  c = ' ' || c = '\t' || c = '\n' || c = '\r' || c = '\x0b' || c = '\x0c'

/-- Python `str.strip()`: drop leading and trailing whitespace. -/
def pyStrip (l : List Char) : List Char :=
  ((l.dropWhile pyWhitespace).reverse.dropWhile pyWhitespace).reverse

/-- Python `str.split(",")`: every comma separates; `"".split(",") == [""]`. -/
def pySplitAux : List Char → List Char → List (List Char)
  | [], acc => [acc.reverse]
  | ',' :: rest, acc => acc.reverse :: pySplitAux rest []
  | c :: rest, acc => pySplitAux rest (c :: acc)

def pySplit (l : List Char) : List (List Char) := pySplitAux l []

/-- Digit run as accepted by Python's `int()` after the optional sign:
nonempty digits, with single underscores allowed between digits. -/
def pyDigitsOK : List Char → Bool
  | [] => true
  | '_' :: c :: rest => c.isDigit && pyDigitsOK rest
  | c :: rest => c.isDigit && pyDigitsOK rest

/-- Numeric value of a digit run (underscores removed by the caller). -/
def digitsVal (l : List Char) : Nat :=
  l.foldl (fun acc c => acc * 10 + (c.toNat - '0'.toNat)) 0

/-- Python `int(str)` on an unsigned body. -/
def pyUnsigned (l : List Char) : Option Nat :=
  match l with
  | [] => none
  | c :: _ =>
    if c.isDigit && pyDigitsOK l then some (digitsVal (l.filter fun c => c ≠ '_'))
    else none

/-- Python `int(str)`: surrounding whitespace, optional sign, digit run;
`none` models `ValueError`. -/
def pyInt (l : List Char) : Option Int :=
  match pyStrip l with
  | '-' :: rest => (pyUnsigned rest).map fun n => -(n : Int)
  | '+' :: rest => (pyUnsigned rest).map fun n => (n : Int)
  | t => (pyUnsigned t).map fun n => (n : Int)

/-- What `subprocess.run(..., capture_output=True, text=True)` hands back
for the probe process: its exit status and its standard output. -/
structure ProcResult where
  exitCode : Int
  stdout : List Char

/-- src/app.py lines 83-85: `result.stdout.strip().split(",")` and `int()`
of fields 0 and 1; `none` collects the `ValueError`/`IndexError` paths. -/
def parseDims (out : List Char) : Option (Int × Int) :=
  let dims := pySplit (pyStrip out)
  match dims[0]?.bind pyInt, dims[1]?.bind pyInt with
  | some w, some h => some (w, h)
  | _, _ => none

/-- src/app.py lines 79-87: the probe's exit status is never examined; the
`except` clause substitutes the defaults `(1280, 720)`. -/
def probeDimensions (res : ProcResult) : Int × Int :=
  (parseDims res.stdout).getD (1280, 720)

/-! ## Per-asset containment in the orchestrator (src/app.py lines 345-398)

`processing_thread` walks the selected images, videos and icons in order;
each asset's renderer/encoder call sits inside its own `try`/`except`
(lines 356-372, 378-395, 403-421, 426-446), which turns any raise into a
status line and moves on, and a `False` return only skips the append to
`processed_files`.  An asset is modelled by its display name together with
the outcome of its renderer call: `Except.error` for a raise caught by the
per-asset handler, `Except.ok b` for a normal boolean return. -/

/-- Body of one iteration: how `processed_files` evolves for one asset. -/
def processAsset (processed : List String) (name : String)
    (outcome : Except String Bool) : List String :=
  match outcome with
  | Except.error _ => processed
  | Except.ok true => processed ++ [name]
  | Except.ok false => processed

/-- The `processed_files` list produced by one batch run. -/
def processing_thread (assets : List (String × Except String Bool)) : List String :=
  assets.foldl (fun acc a => processAsset acc a.1 a.2) []

/-! ## Properties of the binary64 model -/

lemma nbitsA_zero (f : Nat) : nbitsA f 0 = 0 := by
  cases f <;> simp [nbitsA]

lemma nbitsA_spec :
    ∀ f n, 0 < n → n ≤ f →
      0 < nbitsA f n ∧ 2 ^ (nbitsA f n - 1) ≤ n ∧ n < 2 ^ nbitsA f n := by
  intro f
  induction f with
  | zero => intro n h0 h1; omega
  | succ f ih =>
    intro n h0 h1
    have hne : ¬ n = 0 := by omega
    by_cases h2 : n = 1
    · subst h2
      have heq : nbitsA (f + 1) 1 = 1 := by simp [nbitsA, nbitsA_zero]
      rw [heq]
      norm_num
    · have hrec : 0 < n / 2 := Nat.div_pos (by omega) (by omega)
      have hle : n / 2 ≤ f := by omega
      obtain ⟨hk0, hk1, hk2⟩ := ih (n / 2) hrec hle
      have heq : nbitsA (f + 1) n = nbitsA f (n / 2) + 1 := by
        simp [nbitsA, hne]
      rw [heq]
      set k := nbitsA f (n / 2) with hk
      have p1 : 2 ^ (k - 1) * 2 = 2 ^ k := by
        have h := pow_succ 2 (k - 1)
        rw [← h]
        congr 1
        omega
      have p2 : 2 ^ (k + 1) = 2 ^ k * 2 := by rw [pow_succ]
      have hdm := Nat.div_add_mod n 2
      have hm : n % 2 < 2 := Nat.mod_lt _ (by omega)
      have h3 : k + 1 - 1 = k := by omega
      refine ⟨by omega, ?_, ?_⟩
      · rw [h3]; omega
      · omega

lemma nbits_spec (n : Nat) (h : 0 < n) :
    0 < nbits n ∧ 2 ^ (nbits n - 1) ≤ n ∧ n < 2 ^ nbits n :=
  nbitsA_spec n n h le_rfl

lemma pow2le_iff (c : Int) (n d : Nat) (hd : 0 < d) :
    pow2le c n d = true ↔ (2 : ℚ) ^ c ≤ (n : ℚ) / (d : ℚ) := by
  have hdQ : (0 : ℚ) < (d : ℚ) := by exact_mod_cast hd
  unfold pow2le
  by_cases hc : 0 ≤ c
  · obtain ⟨k, rfl⟩ : ∃ k : ℕ, c = (k : ℤ) := ⟨c.toNat, (Int.toNat_of_nonneg hc).symm⟩
    rw [if_pos hc, decide_eq_true_iff, Int.toNat_natCast, zpow_natCast, le_div_iff₀ hdQ]
    rw [show ((2 : ℚ) ^ k * d) = ((d * 2 ^ k : ℕ) : ℚ) by push_cast; ring, Nat.cast_le]
  · obtain ⟨k, rfl⟩ : ∃ k : ℕ, c = -(k : ℤ) :=
      ⟨(-c).toNat, by have := Int.toNat_of_nonneg (show (0 : ℤ) ≤ -c by omega); omega⟩
    rw [if_neg hc, decide_eq_true_iff, neg_neg, Int.toNat_natCast]
    rw [zpow_neg, zpow_natCast, ← one_div, div_le_div_iff₀ (by positivity) hdQ, one_mul]
    rw [show ((n : ℚ) * 2 ^ k) = ((n * 2 ^ k : ℕ) : ℚ) by push_cast; ring, Nat.cast_le]

lemma qexpN_spec (n d : Nat) (hn : 0 < n) (hd : 0 < d) :
    (2 : ℚ) ^ qexpN n d ≤ (n : ℚ) / d ∧ (n : ℚ) / d < 2 ^ (qexpN n d + 1) := by
  obtain ⟨ha0, ha1, ha2⟩ := nbits_spec n hn
  obtain ⟨hb0, hb1, hb2⟩ := nbits_spec d hd
  have hdQ : (0 : ℚ) < (d : ℚ) := by exact_mod_cast hd
  set a := nbits n with hadef
  set b := nbits d with hbdef
  have hn1 : (2 : ℚ) ^ ((a : ℤ) - 1) ≤ (n : ℚ) := by
    have h1 : ((2 ^ (a - 1) : ℕ) : ℚ) ≤ (n : ℚ) := by exact_mod_cast ha1
    have h2 : ((a : ℤ) - 1) = ((a - 1 : ℕ) : ℤ) := by omega
    rw [h2, zpow_natCast]
    push_cast at h1 ⊢
    exact h1
  have hn2 : (n : ℚ) < 2 ^ (a : ℤ) := by
    have h1 : (n : ℚ) < ((2 ^ a : ℕ) : ℚ) := by exact_mod_cast ha2
    rw [zpow_natCast]
    push_cast at h1 ⊢
    exact h1
  have hd1 : (2 : ℚ) ^ ((b : ℤ) - 1) ≤ (d : ℚ) := by
    have h1 : ((2 ^ (b - 1) : ℕ) : ℚ) ≤ (d : ℚ) := by exact_mod_cast hb1
    have h2 : ((b : ℤ) - 1) = ((b - 1 : ℕ) : ℤ) := by omega
    rw [h2, zpow_natCast]
    push_cast at h1 ⊢
    exact h1
  have hd2 : (d : ℚ) < 2 ^ (b : ℤ) := by
    have h1 : (d : ℚ) < ((2 ^ b : ℕ) : ℚ) := by exact_mod_cast hb2
    rw [zpow_natCast]
    push_cast at h1 ⊢
    exact h1
  have hlb : (2 : ℚ) ^ ((a : ℤ) - (b : ℤ) - 1) ≤ (n : ℚ) / d := by
    rw [show (a : ℤ) - (b : ℤ) - 1 = ((a : ℤ) - 1) - (b : ℤ) by ring]
    rw [zpow_sub₀ (by norm_num : (2:ℚ) ≠ 0)]
    rw [div_le_div_iff₀ (by positivity) hdQ]
    refine le_of_lt ?_
    calc (2 : ℚ) ^ ((a : ℤ) - 1) * d < 2 ^ ((a : ℤ) - 1) * 2 ^ (b : ℤ) := by
          have hp : (0:ℚ) < 2 ^ ((a : ℤ) - 1) := by positivity
          exact (mul_lt_mul_left hp).mpr hd2
      _ ≤ (n : ℚ) * 2 ^ (b : ℤ) := by
          have hp : (0:ℚ) < (2:ℚ) ^ (b : ℤ) := by positivity
          exact (mul_le_mul_right hp).mpr hn1
  have hub : (n : ℚ) / d < 2 ^ ((a : ℤ) - (b : ℤ) + 1) := by
    rw [show (a : ℤ) - (b : ℤ) + 1 = (a : ℤ) - ((b : ℤ) - 1) by ring]
    rw [zpow_sub₀ (by norm_num : (2:ℚ) ≠ 0)]
    rw [div_lt_div_iff₀ hdQ (by positivity)]
    calc (n : ℚ) * 2 ^ ((b : ℤ) - 1) ≤ (n : ℚ) * d := by
          have hnQ : (0:ℚ) ≤ (n : ℚ) := by positivity
          exact mul_le_mul_of_nonneg_left hd1 hnQ
      _ < 2 ^ (a : ℤ) * d := by exact (mul_lt_mul_right hdQ).mpr hn2
  unfold qexpN
  by_cases hp : pow2le ((a : ℤ) - (b : ℤ)) n d = true
  · rw [if_pos hp]
    exact ⟨(pow2le_iff _ _ _ hd).mp hp, hub⟩
  · rw [if_neg hp]
    have hlt : (n : ℚ) / d < 2 ^ ((a : ℤ) - (b : ℤ)) := by
      have := (not_iff_not.mpr (pow2le_iff ((a : ℤ) - (b : ℤ)) n d hd)).mp hp
      linarith [not_le.mp this]
    constructor
    · exact hlb
    · have : (a : ℤ) - (b : ℤ) - 1 + 1 = (a : ℤ) - (b : ℤ) := by ring
      rw [this]
      exact hlt

lemma rheN_bounds (n d : Nat) (hd : 0 < d) :
    (n : ℚ) / d - 1 / 2 ≤ (rheN n d : ℚ) ∧ (rheN n d : ℚ) ≤ (n : ℚ) / d + 1 / 2 := by
  have hdQ : (0 : ℚ) < (d : ℚ) := by exact_mod_cast hd
  have hval : (n : ℚ) / d = (n / d : ℕ) + ((n % d : ℕ) : ℚ) / d := by
    have hNat := Nat.div_add_mod n d
    have h : ((n / d : ℕ) : ℚ) * d + ((n % d : ℕ) : ℚ) = (n : ℚ) := by
      rw [mul_comm]
      exact_mod_cast hNat
    field_simp
    linarith
  have hrlt : n % d < d := Nat.mod_lt _ hd
  have hfrac_nonneg : (0:ℚ) ≤ ((n % d : ℕ) : ℚ) / d := by positivity
  have hfrac_lt1 : ((n % d : ℕ) : ℚ) / d < 1 := by
    rw [div_lt_one hdQ]
    exact_mod_cast hrlt
  unfold rheN
  by_cases h1 : 2 * (n % d) < d
  · rw [if_pos h1]
    have hle : ((n % d : ℕ) : ℚ) / d ≤ 1 / 2 := by
      rw [div_le_div_iff₀ hdQ (by norm_num)]
      have h2 : ((2 * (n % d) : ℕ) : ℚ) ≤ ((d : ℕ) : ℚ) := by
        exact_mod_cast (by omega : 2 * (n % d) ≤ d)
      push_cast at h2 ⊢
      linarith
    constructor <;> rw [hval] <;> linarith
  · rw [if_neg h1]
    have hge : 1 / 2 ≤ ((n % d : ℕ) : ℚ) / d := by
      rw [div_le_div_iff₀ (by norm_num) hdQ]
      have h2 : ((d : ℕ) : ℚ) ≤ ((2 * (n % d) : ℕ) : ℚ) := by
        exact_mod_cast (by omega : d ≤ 2 * (n % d))
      push_cast at h2 ⊢
      linarith
    by_cases h2 : d < 2 * (n % d)
    · rw [if_pos h2]
      push_cast
      constructor <;> rw [hval] <;> linarith
    · rw [if_neg h2]
      have heq : ((n % d : ℕ) : ℚ) / d = 1 / 2 := by
        rw [div_eq_div_iff hdQ.ne' (by norm_num : (2:ℚ) ≠ 0)]
        have h3 : ((2 * (n % d) : ℕ) : ℚ) = ((d : ℕ) : ℚ) := by
          exact_mod_cast congrArg (Nat.cast (R := ℚ)) (by omega : 2 * (n % d) = d)
        push_cast at h3 ⊢
        linarith
      by_cases h3 : n / d % 2 = 0
      · rw [if_pos h3]
        constructor <;> rw [hval, heq] <;> linarith
      · rw [if_neg h3]
        constructor <;> rw [hval, heq] <;> push_cast <;> linarith

lemma rheN_one (x : Nat) : rheN x 1 = x := by
  simp [rheN, Nat.mod_one, Nat.div_one]

lemma dyadic_round_bounds (N D : Nat) (s : Int) (v : ℚ) (hD : 0 < D)
    (hkey : ((N : ℚ) / D) * 2 ^ s = v) (hhalf : (2 : ℚ) ^ s / 2 ≤ v / 2 ^ (53 : ℕ)) :
    v - v / 2 ^ (53 : ℕ) ≤ (rheN N D : ℚ) * 2 ^ s ∧
    (rheN N D : ℚ) * 2 ^ s ≤ v + v / 2 ^ (53 : ℕ) := by
  have h2s : (0 : ℚ) < (2 : ℚ) ^ s := zpow_pos (by norm_num) s
  obtain ⟨hr1, hr2⟩ := rheN_bounds N D hD
  have m1 := mul_le_mul_of_nonneg_right hr1 h2s.le
  have m2 := mul_le_mul_of_nonneg_right hr2 h2s.le
  rw [sub_mul, hkey] at m1
  rw [add_mul, hkey] at m2
  have hdiv : (1 : ℚ) / 2 * 2 ^ s = 2 ^ s / 2 := by ring
  rw [hdiv] at m1 m2
  constructor <;> linarith

lemma flN_err (n d : Nat) (hn : 0 < n) (hd : 0 < d) :
    (n : ℚ) / d - ((n : ℚ) / d) / 2 ^ (53 : ℕ) ≤ toQ (flN n d) ∧
    toQ (flN n d) ≤ (n : ℚ) / d + ((n : ℚ) / d) / 2 ^ (53 : ℕ) := by
  have hdQ : (0 : ℚ) < (d : ℚ) := by exact_mod_cast hd
  have hq : (0 : ℚ) < (n : ℚ) / d := by positivity
  obtain ⟨he1, he2⟩ := qexpN_spec n d hn hd
  set e := qexpN n d with hedef
  have hhalf : (2 : ℚ) ^ (e - 52) / 2 ≤ ((n : ℚ) / d) / 2 ^ (53 : ℕ) := by
    have hexp : (2 : ℚ) ^ (e - 52) / 2 = 2 ^ e / 2 ^ (53 : ℕ) := by
      rw [zpow_sub₀ (by norm_num : (2:ℚ) ≠ 0)]
      rw [show ((52 : ℤ)) = ((52 : ℕ) : ℤ) by norm_num, zpow_natCast]
      rw [div_div]
      norm_num
    rw [hexp]
    gcongr
  unfold flN
  rw [if_neg (by omega : ¬ n = 0)]
  by_cases hs : 0 ≤ e - 52
  · rw [if_pos hs]
    have hD : 0 < d * 2 ^ (e - 52).toNat := by positivity
    have hz : ((2:ℚ) ^ ((e - 52).toNat : ℕ)) = (2:ℚ) ^ (e - 52) := by
      rw [← zpow_natCast (2:ℚ) (e - 52).toNat, Int.toNat_of_nonneg hs]
    have hDQ : ((d * 2 ^ (e - 52).toNat : ℕ) : ℚ) = (d : ℚ) * 2 ^ (e - 52) := by
      push_cast
      rw [hz]
    have hkey : ((n : ℚ) / (d * 2 ^ (e - 52).toNat : ℕ)) * 2 ^ (e - 52) = (n : ℚ) / d := by
      rw [hDQ]
      have h2 : ((2:ℚ) ^ (e - 52)) ≠ 0 := (zpow_pos (by norm_num) _).ne'
      field_simp
      ring
    exact dyadic_round_bounds _ _ _ _ hD hkey hhalf
  · rw [if_neg hs]
    set k := (-(e - 52)).toNat with hkdef
    have hks : ((k : ℤ)) = -(e - 52) := Int.toNat_of_nonneg (by omega)
    have hNQ : ((n * 2 ^ k : ℕ) : ℚ) = (n : ℚ) * 2 ^ (k : ℕ) := by push_cast; ring
    have hkey : (((n * 2 ^ k : ℕ) : ℚ) / d) * 2 ^ (e - 52) = (n : ℚ) / d := by
      rw [hNQ]
      have hz : (2 : ℚ) ^ (e - 52) = ((2 : ℚ) ^ (k : ℕ))⁻¹ := by
        rw [← zpow_natCast (2:ℚ) k, ← zpow_neg]
        congr 1
        omega
      rw [hz]
      have h2 : ((2:ℚ) ^ (k : ℕ)) ≠ 0 := by positivity
      field_simp
      ring
    exact dyadic_round_bounds _ _ _ _ hd hkey hhalf

lemma flN_pos (n d : Nat) (hn : 0 < n) (hd : 0 < d) : 0 < toQ (flN n d) := by
  have hq : (0 : ℚ) < (n : ℚ) / d := by
    have : (0:ℚ) < (d:ℚ) := by exact_mod_cast hd
    positivity
  have h := (flN_err n d hn hd).1
  nlinarith [hq]

lemma flN_nat (n : Nat) (h0 : 0 < n) (h1 : n ≤ 2 ^ 52) : toQ (flN n 1) = n := by
  obtain ⟨he1, he2⟩ := qexpN_spec n 1 h0 one_pos
  rw [Nat.cast_one, div_one] at he1 he2
  set e := qexpN n 1 with hedef
  have he52 : e ≤ 52 := by
    by_contra hgt
    push_neg at hgt
    have hz : (2 : ℚ) ^ ((53 : ℕ) : ℤ) ≤ 2 ^ e := zpow_le_zpow_right₀ (by norm_num) (by omega)
    rw [zpow_natCast] at hz
    have hn52 : (n : ℚ) ≤ 2 ^ (52 : ℕ) := by exact_mod_cast h1
    have : (2:ℚ) ^ (53 : ℕ) ≤ 2 ^ (52 : ℕ) := le_trans hz (le_trans he1 hn52)
    norm_num at this
  unfold flN
  rw [if_neg (by omega : ¬ n = 0)]
  rw [← hedef]
  by_cases hs : 0 ≤ e - 52
  · rw [if_pos hs]
    have hs0 : e - 52 = 0 := by omega
    rw [hs0]
    simp [rheN_one, toQ]
  · rw [if_neg hs]
    set k := (-(e - 52)).toNat with hkdef
    rw [rheN_one]
    unfold toQ
    have hz : (2 : ℚ) ^ (e - 52) = ((2 : ℚ) ^ (k : ℕ))⁻¹ := by
      rw [← zpow_natCast (2:ℚ) k, ← zpow_neg]
      congr 1
      have := Int.toNat_of_nonneg (show (0:ℤ) ≤ -(e - 52) by omega)
      omega
    have h2 : ((2:ℚ) ^ (k : ℕ)) ≠ 0 := by positivity
    push_cast
    rw [hz]
    field_simp

lemma floorDy_eq (x : Nat × Int) : (floorDy x : ℤ) = ⌊toQ x⌋ := by
  unfold floorDy toQ
  by_cases hs : 0 ≤ x.2
  · rw [if_pos hs]
    obtain ⟨k, hk⟩ : ∃ k : ℕ, x.2 = (k : ℤ) := ⟨x.2.toNat, (Int.toNat_of_nonneg hs).symm⟩
    rw [hk, Int.toNat_natCast, zpow_natCast]
    rw [show ((x.1 : ℚ) * 2 ^ k) = ((x.1 * 2 ^ k : ℕ) : ℚ) by push_cast; ring]
    rw [Int.floor_natCast]
  · rw [if_neg hs]
    set k := (-x.2).toNat with hkdef
    have hx2 : (2 : ℚ) ^ x.2 = ((2 : ℚ) ^ (k : ℕ))⁻¹ := by
      rw [← zpow_natCast (2:ℚ) k, ← zpow_neg]
      congr 1
      have := Int.toNat_of_nonneg (show (0:ℤ) ≤ -x.2 by omega)
      omega
    rw [hx2, ← div_eq_mul_inv]
    have hpow : (0 : ℚ) < 2 ^ k := by positivity
    have hNat := Nat.div_add_mod x.1 (2 ^ k)
    have hcast : ((x.1 / 2 ^ k : ℕ) : ℚ) * 2 ^ k + ((x.1 % 2 ^ k : ℕ) : ℚ) = (x.1 : ℚ) := by
      rw [mul_comm]
      exact_mod_cast hNat
    have hmod : ((x.1 % 2 ^ k : ℕ) : ℚ) < 2 ^ k := by
      exact_mod_cast Nat.mod_lt _ (by positivity : 0 < 2 ^ k)
    have hmodnn : (0 : ℚ) ≤ ((x.1 % 2 ^ k : ℕ) : ℚ) := by positivity
    have hle : ((x.1 / 2 ^ k : ℕ) : ℚ) * 2 ^ k ≤ (x.1 : ℚ) := by linarith
    have hlt : (x.1 : ℚ) < (((x.1 / 2 ^ k : ℕ) : ℚ) + 1) * 2 ^ k := by
      have hexp : (((x.1 / 2 ^ k : ℕ) : ℚ) + 1) * 2 ^ k =
          ((x.1 / 2 ^ k : ℕ) : ℚ) * 2 ^ k + 2 ^ k := by ring
      rw [hexp]
      linarith
    rw [eq_comm, Int.floor_eq_iff]
    constructor
    · rw [le_div_iff₀ hpow]
      exact_mod_cast hle
    · rw [div_lt_iff₀ hpow]
      exact_mod_cast hlt

lemma flMul_err (a b : Nat × Int) (ha : 0 < a.1) (hb : 0 < b.1) :
    toQ a * toQ b - (toQ a * toQ b) / 2 ^ (53 : ℕ) ≤ toQ (flMul a b) ∧
    toQ (flMul a b) ≤ toQ a * toQ b + (toQ a * toQ b) / 2 ^ (53 : ℕ) := by
  have hprod : toQ a * toQ b = ((a.1 * b.1 : ℕ) : ℚ) * 2 ^ (a.2 + b.2) := by
    unfold toQ
    push_cast
    rw [zpow_add₀ (by norm_num : (2:ℚ) ≠ 0)]
    ring
  unfold flMul
  by_cases hs : 0 ≤ a.2 + b.2
  · rw [if_pos hs]
    have hvpos : 0 < a.1 * b.1 * 2 ^ (a.2 + b.2).toNat := by positivity
    have h := flN_err _ 1 hvpos one_pos
    rw [Nat.cast_one, div_one] at h
    have hvq : ((a.1 * b.1 * 2 ^ (a.2 + b.2).toNat : ℕ) : ℚ) = toQ a * toQ b := by
      rw [hprod]
      push_cast
      congr 1
      rw [← zpow_natCast (2:ℚ) (a.2 + b.2).toNat, Int.toNat_of_nonneg hs]
    rw [hvq] at h
    exact h
  · rw [if_neg hs]
    have hvpos : 0 < a.1 * b.1 := by positivity
    have hdpos : 0 < 2 ^ (-(a.2 + b.2)).toNat := by positivity
    have h := flN_err (a.1 * b.1) (2 ^ (-(a.2 + b.2)).toNat) hvpos hdpos
    have hvq : ((a.1 * b.1 : ℕ) : ℚ) / ((2 ^ (-(a.2 + b.2)).toNat : ℕ) : ℚ) =
        toQ a * toQ b := by
      rw [hprod]
      have hz : (2 : ℚ) ^ (a.2 + b.2) = ((2 : ℚ) ^ ((-(a.2 + b.2)).toNat : ℕ))⁻¹ := by
        rw [← zpow_natCast (2:ℚ) (-(a.2 + b.2)).toNat, ← zpow_neg]
        congr 1
        have := Int.toNat_of_nonneg (show (0:ℤ) ≤ -(a.2 + b.2) by omega)
        omega
      rw [hz, ← div_eq_mul_inv]
      congr 1
      push_cast
      ring
    rw [hvq] at h
    exact h

lemma toQ_pos_mantissa (x : Nat × Int) (h : 0 < toQ x) : 0 < x.1 := by
  by_contra h0
  have hx1 : x.1 = 0 := by omega
  rw [toQ, hx1] at h
  simp at h

/-! ## Bounds on the planner's scaled dimension -/

lemma scaledDim_le_512 (d m : Nat) (hd : 0 < d) (hdm : d ≤ m) : scaledDim d m ≤ 512 := by
  have hm : 0 < m := lt_of_lt_of_le hd hdm
  have hmQ : (0:ℚ) < (m:ℚ) := by exact_mod_cast hm
  have hdQ : (0:ℚ) < (d:ℚ) := by exact_mod_cast hd
  have h512 : (0:ℕ) < MAX_IMAGE_SIZE := by norm_num [MAX_IMAGE_SIZE]
  have hdmQ : (d:ℚ) ≤ (m:ℚ) := by exact_mod_cast hdm
  have haQ := flN_err d 1 hd one_pos
  rw [Nat.cast_one, div_one] at haQ
  have hbQ := flN_err MAX_IMAGE_SIZE m h512 hm
  have ha_pos : 0 < toQ (flN d 1) := flN_pos d 1 hd one_pos
  have hb_pos : 0 < toQ (flN MAX_IMAGE_SIZE m) := flN_pos MAX_IMAGE_SIZE m h512 hm
  have hxQ := flMul_err (flN d 1) (flN MAX_IMAGE_SIZE m)
    (toQ_pos_mantissa _ ha_pos) (toQ_pos_mantissa _ hb_pos)
  set a := toQ (flN d 1) with hadef
  set bq := toQ (flN MAX_IMAGE_SIZE m) with hbdef
  set x := toQ (flMul (flN d 1) (flN MAX_IMAGE_SIZE m)) with hxdef
  set R : ℚ := ((MAX_IMAGE_SIZE : ℕ) : ℚ) / (m : ℚ) with hRdef
  have hRpos : (0:ℚ) < R := by rw [hRdef]; positivity
  have hdR : (d : ℚ) * R ≤ 512 := by
    rw [hRdef, show ((MAX_IMAGE_SIZE : ℕ) : ℚ) = 512 from by norm_num [MAX_IMAGE_SIZE]]
    rw [show (d:ℚ) * ((512:ℚ) / m) = ((d:ℚ) * 512) / m from by ring]
    rw [div_le_iff₀ hmQ]
    nlinarith
  obtain ⟨ha1, ha2⟩ := haQ
  obtain ⟨hb1, hb2⟩ := hbQ
  obtain ⟨hx1, hx2⟩ := hxQ
  have s1 : a * bq ≤ ((d:ℚ) + (d:ℚ)/2^53) * (R + R/2^53) :=
    mul_le_mul ha2 hb2 hb_pos.le (by positivity)
  have s4 : x ≤ (((d:ℚ) + (d:ℚ)/2^53) * (R + R/2^53)) * (1 + 1/2^53) := by
    linarith [s1, hx2]
  have s5 : (((d:ℚ) + (d:ℚ)/2^53) * (R + R/2^53)) * (1 + 1/2^53) =
      ((d:ℚ) * R) * (1 + 1/2^53)^3 := by ring
  have s6 : ((d:ℚ) * R) * (1 + 1/2^53)^3 ≤ 512 * (1 + 1/2^53)^3 :=
    mul_le_mul_of_nonneg_right hdR (by positivity)
  have s7 : (512:ℚ) * (1 + 1/2^53)^3 < 513 := by norm_num
  have hxlt : x < 513 := by
    rw [s5] at s4
    linarith
  have hfl : (scaledDim d m : ℤ) = ⌊x⌋ := by
    unfold scaledDim
    rw [hxdef]
    exact floorDy_eq _
  have hint : (scaledDim d m : ℤ) < 513 := by
    rw [hfl]
    exact Int.floor_lt.mpr (by push_cast; linarith)
  omega

lemma scaledDim_floor_bounds (d m : Nat) (hd : 0 < d) (hdm : d ≤ m) (hm40 : m ≤ 2 ^ 40) :
    scaledDim d m ≤ d * 512 / m ∧ d * 512 / m ≤ scaledDim d m + 1 := by
  have hm : 0 < m := lt_of_lt_of_le hd hdm
  have hmQ : (0:ℚ) < (m:ℚ) := by exact_mod_cast hm
  have hdQ : (0:ℚ) < (d:ℚ) := by exact_mod_cast hd
  have h512 : (0:ℕ) < MAX_IMAGE_SIZE := by norm_num [MAX_IMAGE_SIZE]
  have hdmQ : (d:ℚ) ≤ (m:ℚ) := by exact_mod_cast hdm
  have hd52 : d ≤ 2 ^ 52 := le_trans hdm (le_trans hm40 (by norm_num))
  have haQ : toQ (flN d 1) = (d : ℚ) := flN_nat d hd hd52
  have hbQ := flN_err MAX_IMAGE_SIZE m h512 hm
  have ha_pos : 0 < toQ (flN d 1) := flN_pos d 1 hd one_pos
  have hb_pos : 0 < toQ (flN MAX_IMAGE_SIZE m) := flN_pos MAX_IMAGE_SIZE m h512 hm
  have hxQ := flMul_err (flN d 1) (flN MAX_IMAGE_SIZE m)
    (toQ_pos_mantissa _ ha_pos) (toQ_pos_mantissa _ hb_pos)
  rw [haQ] at hxQ
  set bq := toQ (flN MAX_IMAGE_SIZE m) with hbdef
  set x := toQ (flMul (flN d 1) (flN MAX_IMAGE_SIZE m)) with hxdef
  set R : ℚ := ((MAX_IMAGE_SIZE : ℕ) : ℚ) / (m : ℚ) with hRdef
  have hRpos : (0:ℚ) < R := by rw [hRdef]; positivity
  set N := d * 512 / m with hNdef
  set r := (d * 512) % m with hrdef
  have hNr : m * N + r = d * 512 := by
    rw [hNdef, hrdef]
    exact Nat.div_add_mod (d * 512) m
  have hrm : r < m := by
    rw [hrdef]
    exact Nat.mod_lt _ hm
  have hQsplit : (d:ℚ) * R = (N:ℚ) + (r:ℚ)/m := by
    rw [hRdef, show ((MAX_IMAGE_SIZE : ℕ) : ℚ) = 512 from by norm_num [MAX_IMAGE_SIZE]]
    have h1 : (m:ℚ) * N + r = (d:ℚ) * 512 := by exact_mod_cast hNr
    field_simp
    linarith
  have hQ1 : (N:ℚ) ≤ (d:ℚ) * R := by
    rw [hQsplit]
    have : (0:ℚ) ≤ (r:ℚ)/m := by positivity
    linarith
  have hQ2 : (d:ℚ) * R ≤ (N:ℚ) + 1 - 1/m := by
    rw [hQsplit]
    have hr1 : (r:ℚ) ≤ (m:ℚ) - 1 := by
      have : (r:ℚ) + 1 ≤ (m:ℚ) := by exact_mod_cast hrm
      linarith
    have hdivle : (r:ℚ)/m ≤ ((m:ℚ) - 1)/m := by gcongr
    have hsplit2 : ((m:ℚ) - 1)/m = 1 - 1/m := by
      rw [sub_div, div_self hmQ.ne']
    linarith
  have hQ512 : (d:ℚ) * R ≤ 512 := by
    rw [hRdef, show ((MAX_IMAGE_SIZE : ℕ) : ℚ) = 512 from by norm_num [MAX_IMAGE_SIZE]]
    rw [show (d:ℚ) * ((512:ℚ) / m) = ((d:ℚ) * 512) / m from by ring]
    rw [div_le_iff₀ hmQ]
    nlinarith
  obtain ⟨hb1, hb2⟩ := hbQ
  obtain ⟨hx1, hx2⟩ := hxQ
  have t1 : (d:ℚ) * bq ≤ (d:ℚ) * (R + R/2^53) := by
    apply mul_le_mul_of_nonneg_left hb2 hdQ.le
  have t2 : (d:ℚ) * (R - R/2^53) ≤ (d:ℚ) * bq := by
    apply mul_le_mul_of_nonneg_left hb1 hdQ.le
  have u1 : x ≤ ((d:ℚ) * (R + R/2^53)) * (1 + 1/2^53) := by linarith [t1, hx2]
  have u2 : ((d:ℚ) * (R + R/2^53)) * (1 + 1/2^53) =
      ((d:ℚ) * R) + ((d:ℚ) * R) * (2 * (1/2^53) + (1/2^53)^2) := by ring
  have u3 : ((d:ℚ) * R) * (2 * (1/2^53) + (1/2^53)^2) ≤
      512 * (2 * (1/2^53) + (1/2^53)^2) := by
    apply mul_le_mul_of_nonneg_right hQ512 (by norm_num)
  have hcsmall : (512:ℚ) * (2 * (1/2^53) + (1/2^53)^2) < 1/2^40 := by norm_num
  have hminv : (1:ℚ)/2^40 ≤ 1/m := by
    apply one_div_le_one_div_of_le hmQ
    exact_mod_cast hm40
  have hupper : x < (N:ℚ) + 1 := by
    rw [u2] at u1
    linarith
  have l1 : ((d:ℚ) * (R - R/2^53)) * (1 - 1/2^53) ≤ x := by linarith [t2, hx1]
  have l2 : ((d:ℚ) * (R - R/2^53)) * (1 - 1/2^53) =
      ((d:ℚ) * R) - ((d:ℚ) * R) * (2 * (1/2^53) - (1/2^53)^2) := by ring
  have l3 : ((d:ℚ) * R) * (2 * (1/2^53) - (1/2^53)^2) ≤
      512 * (2 * (1/2^53) - (1/2^53)^2) := by
    apply mul_le_mul_of_nonneg_right hQ512 (by norm_num)
  have hsmall2 : (512:ℚ) * (2 * (1/2^53) - (1/2^53)^2) < 1 := by norm_num
  have hlower : (N:ℚ) - 1 < x := by
    rw [l2] at l1
    linarith
  have hfl : (scaledDim d m : ℤ) = ⌊x⌋ := by
    unfold scaledDim
    rw [hxdef]
    exact floorDy_eq _
  have hub : (scaledDim d m : ℤ) < (N:ℤ) + 1 := by
    rw [hfl]
    apply Int.floor_lt.mpr
    push_cast
    linarith
  have hlb : (N:ℤ) - 1 ≤ (scaledDim d m : ℤ) := by
    rw [hfl]
    apply Int.le_floor.mpr
    push_cast
    linarith
  omega

/-! ## Properties of the even-rounding step -/

lemma roundUpEven_even (n : Nat) : roundUpEven n % 2 = 0 := by
  unfold roundUpEven
  split <;> omega

lemma roundUpEven_le (n : Nat) (h : n ≤ 512) : roundUpEven n ≤ 512 := by
  unfold roundUpEven
  split <;> omega

/-! ## Properties of the encode loop -/

lemma convLoop_eq (enc : Nat → Option Nat) (maxB b fuel : Nat) :
    convLoop enc maxB b fuel =
      match enc b with
      | none => { tried := [b], crashed := true, lastSize := 0 }
      | some s =>
        if s ≤ maxB then { tried := [b], crashed := false, lastSize := s }
        else
          match fuel with
          | 0 => { tried := [b], crashed := false, lastSize := s }
          | f + 1 =>
            let r := convLoop enc maxB (nextBitrate b) f
            { tried := b :: r.tried, crashed := r.crashed, lastSize := r.lastSize } := by
  rw [convLoop]

lemma convLoop_none (enc : Nat → Option Nat) (maxB b fuel : Nat)
    (henc : enc b = none) :
    convLoop enc maxB b fuel = { tried := [b], crashed := true, lastSize := 0 } := by
  rw [convLoop_eq, henc]

lemma convLoop_some_le (enc : Nat → Option Nat) (maxB b fuel s : Nat)
    (henc : enc b = some s) (hs : s ≤ maxB) :
    convLoop enc maxB b fuel = { tried := [b], crashed := false, lastSize := s } := by
  rw [convLoop_eq, henc]
  exact if_pos hs

lemma convLoop_some_gt_zero (enc : Nat → Option Nat) (maxB b s : Nat)
    (henc : enc b = some s) (hs : ¬ s ≤ maxB) :
    convLoop enc maxB b 0 = { tried := [b], crashed := false, lastSize := s } := by
  rw [convLoop_eq, henc]
  exact if_neg hs

lemma convLoop_some_gt_succ (enc : Nat → Option Nat) (maxB b f s : Nat)
    (henc : enc b = some s) (hs : ¬ s ≤ maxB) :
    convLoop enc maxB b (f + 1) =
      { tried := b :: (convLoop enc maxB (nextBitrate b) f).tried,
        crashed := (convLoop enc maxB (nextBitrate b) f).crashed,
        lastSize := (convLoop enc maxB (nextBitrate b) f).lastSize } := by
  rw [convLoop_eq, henc]
  exact if_neg hs

lemma convLoop_tried (enc : Nat → Option Nat) (maxB : Nat) :
    ∀ fuel b,
      1 ≤ (convLoop enc maxB b fuel).tried.length ∧
      (convLoop enc maxB b fuel).tried.length ≤ fuel + 1 ∧
      (convLoop enc maxB b fuel).tried =
        (List.range (convLoop enc maxB b fuel).tried.length).map
          (fun k => nextBitrate^[k] b) := by
  intro fuel
  induction fuel with
  | zero =>
    intro b
    cases henc : enc b with
    | none => rw [convLoop_none enc maxB b 0 henc]; simp [List.range_succ]
    | some s =>
      by_cases hs : s ≤ maxB
      · rw [convLoop_some_le enc maxB b 0 s henc hs]; simp [List.range_succ]
      · rw [convLoop_some_gt_zero enc maxB b s henc hs]; simp [List.range_succ]
  | succ f ih =>
    intro b
    cases henc : enc b with
    | none => rw [convLoop_none enc maxB b (f + 1) henc]; simp [List.range_succ]
    | some s =>
      by_cases hs : s ≤ maxB
      · rw [convLoop_some_le enc maxB b (f + 1) s henc hs]; simp [List.range_succ]
      · have heq := convLoop_some_gt_succ enc maxB b f s henc hs
        obtain ⟨ih1, ih2, ih3⟩ := ih (nextBitrate b)
        rw [heq]
        refine ⟨by simp, by simp; omega, ?_⟩
        simp only [List.length_cons]
        rw [List.range_succ_eq_map, List.map_cons]
        have hcomp : ((fun k => nextBitrate^[k] b) ∘ Nat.succ) =
            (fun k => nextBitrate^[k] (nextBitrate b)) := by
          funext k
          simp [Function.comp, Function.iterate_succ_apply]
        rw [List.map_map, hcomp]
        rw [← ih3]
        simp

lemma convLoop_exhaust (enc : Nat → Option Nat) (maxB : Nat) :
    ∀ fuel b,
      (convLoop enc maxB b fuel).crashed = true ∨
      (convLoop enc maxB b fuel).lastSize ≤ maxB ∨
      (convLoop enc maxB b fuel).tried.length = fuel + 1 := by
  intro fuel
  induction fuel with
  | zero =>
    intro b
    cases henc : enc b with
    | none => left; rw [convLoop_none enc maxB b 0 henc]
    | some s =>
      by_cases hs : s ≤ maxB
      · right; left; rw [convLoop_some_le enc maxB b 0 s henc hs]; exact hs
      · right; right; rw [convLoop_some_gt_zero enc maxB b s henc hs]; rfl
  | succ f ih =>
    intro b
    cases henc : enc b with
    | none => left; rw [convLoop_none enc maxB b (f + 1) henc]
    | some s =>
      by_cases hs : s ≤ maxB
      · right; left; rw [convLoop_some_le enc maxB b (f + 1) s henc hs]; exact hs
      · have heq := convLoop_some_gt_succ enc maxB b f s henc hs
        rw [heq]
        rcases ih (nextBitrate b) with hcr | hsz | hlen
        · left; exact hcr
        · right; left; exact hsz
        · right; right; simp [hlen]

lemma convLoop_crash (enc : Nat → Option Nat) (maxB : Nat) :
    ∀ j fuel b, j ≤ fuel →
      (∀ i, i < j → ∃ s, enc (nextBitrate^[i] b) = some s ∧ maxB < s) →
      enc (nextBitrate^[j] b) = none →
      convLoop enc maxB b fuel =
        { tried := (List.range (j + 1)).map (fun k => nextBitrate^[k] b),
          crashed := true, lastSize := 0 } := by
  intro j
  induction j with
  | zero =>
    intro fuel b hj hover hcrash
    rw [Function.iterate_zero_apply] at hcrash
    rw [convLoop_none enc maxB b fuel hcrash]
    simp [List.range_succ]
  | succ j ihj =>
    intro fuel b hj hover hcrash
    obtain ⟨s0, hs0, hs0big⟩ := hover 0 (by omega)
    rw [Function.iterate_zero_apply] at hs0
    obtain ⟨f, rfl⟩ : ∃ f, fuel = f + 1 := ⟨fuel - 1, by omega⟩
    have hrec := ihj f (nextBitrate b) (by omega)
      (fun i hi => by
        obtain ⟨s, hsi, hbig⟩ := hover (i + 1) (by omega)
        rw [Function.iterate_succ_apply] at hsi
        exact ⟨s, hsi, hbig⟩)
      (by rw [← Function.iterate_succ_apply]; exact hcrash)
    have heq := convLoop_some_gt_succ enc maxB b f s0 hs0 (by omega)
    rw [heq, hrec]
    have hcomp : ((fun k => nextBitrate^[k] b) ∘ Nat.succ) =
        (fun k => nextBitrate^[k] (nextBitrate b)) := by
      funext k
      simp [Function.comp, Function.iterate_succ_apply]
    rw [show List.range (j + 1 + 1) = 0 :: (List.range (j + 1)).map Nat.succ from
      List.range_succ_eq_map (j + 1)]
    simp [List.map_map, hcomp]

/-! ## Properties of the orchestrator -/

lemma processing_foldl (assets : List (String × Except String Bool)) :
    ∀ acc : List String,
      assets.foldl (fun acc a => processAsset acc a.1 a.2) acc =
        acc ++ assets.filterMap (fun a =>
          match a.2 with
          | Except.ok true => some a.1
          | _ => none) := by
  induction assets with
  | nil => intro acc; simp
  | cons a l ih =>
    intro acc
    obtain ⟨name, outcome⟩ := a
    rw [List.foldl_cons]
    cases outcome with
    | error e =>
      rw [show processAsset acc name (Except.error e) = acc from rfl, ih]
      simp [List.filterMap_cons]
    | ok b =>
      cases b with
      | true =>
        rw [show processAsset acc name (Except.ok true) = acc ++ [name] from rfl, ih]
        simp [List.filterMap_cons]
      | false =>
        rw [show processAsset acc name (Except.ok false) = acc from rfl, ih]
        simp [List.filterMap_cons]

lemma processing_thread_eq (assets : List (String × Except String Bool)) :
    processing_thread assets = assets.filterMap (fun a =>
      match a.2 with
      | Except.ok true => some a.1
      | _ => none) := by
  unfold processing_thread
  simpa using processing_foldl assets []

/-! ## Concrete encoder oracles used in counterexamples and witnesses -/

/-- An encoder whose process fails (non-zero exit) on every invocation. -/
def encAllCrash : Nat → Option Nat := fun _ => none

/-- An encoder that produces an oversized artifact at 300 kbps and whose
process fails on any other bitrate. -/
def encErrSecond : Nat → Option Nat := fun b => if b = 300 then some 300000 else none

/-! ## Claims -/

/-- C1 (counterexample).  The claim states that `convert_video` either
succeeds within budget or fails after exactly 5 encode attempts.  When the
encoder process fails on the first attempt, `convert_video` reports failure
after exactly 1 attempt, so the claim as stated is false. -/
theorem convert_video_crash_counterexample :
    ¬ ((convert_video false encAllCrash = true ∧
        (convRun false encAllCrash).lastSize ≤ maxOutputBytes false) ∨
       (convert_video false encAllCrash = false ∧
        (convRun false encAllCrash).tried.length = 5)) := by decide

/-- C1 (amended).  `convert_video` either returns success with the last
artifact's size within the role's byte budget, or returns failure; a failure
verdict comes after exactly 5 encode attempts unless an encoder invocation
itself fails, which aborts earlier.  Success is never reported for an
artifact exceeding the budget. -/
theorem convert_video_budget_or_exhaustion (is_icon : Bool) (enc : Nat → Option Nat) :
    (convert_video is_icon enc = true ∧
      (convRun is_icon enc).lastSize ≤ maxOutputBytes is_icon) ∨
    (convert_video is_icon enc = false ∧
      ((convRun is_icon enc).crashed = true ∨ (convRun is_icon enc).tried.length = 5)) := by
  have h := convLoop_exhaust enc (maxOutputBytes is_icon) 4 (initialBitrate is_icon)
  by_cases hc : (convRun is_icon enc).crashed = true
  · right
    refine ⟨?_, Or.inl hc⟩
    simp [convert_video, hc]
  · by_cases hs : (convRun is_icon enc).lastSize ≤ maxOutputBytes is_icon
    · left
      refine ⟨?_, hs⟩
      simp [convert_video, hc, hs]
    · right
      refine ⟨?_, ?_⟩
      · simp [convert_video, hs]
      · right
        rcases h with h | h | h
        · exact absurd h hc
        · exact absurd h hs
        · simpa using h

/-- C2.  The bitrate schedule of the search loop: the starting points are
300 kbps (regular) and 150 kbps (icon); the bitrates actually passed to the
encoder are exactly the iterates of the reduction step in order; at most 5
attempts happen; and each successive bitrate is at most 0.6 times the
previous one (`5 * next ≤ 3 * prev`). -/
theorem bitrate_schedule (is_icon : Bool) (enc : Nat → Option Nat) :
    initialBitrate false = 300 ∧ initialBitrate true = 150 ∧
    (convRun is_icon enc).tried =
      (List.range (convRun is_icon enc).tried.length).map (bitrateAt is_icon) ∧
    (convRun is_icon enc).tried.length ≤ 5 ∧
    (∀ k, k < 4 → 5 * bitrateAt is_icon (k + 1) ≤ 3 * bitrateAt is_icon k) := by
  obtain ⟨h1, h2, h3⟩ := convLoop_tried enc (maxOutputBytes is_icon) 4 (initialBitrate is_icon)
  refine ⟨rfl, rfl, h3, by simpa using h2, ?_⟩
  intro k hk
  cases is_icon <;> interval_cases k <;> decide

/-- C2 (witness). -/
theorem bitrate_schedule_witness :
    (0 : Nat) < 4 ∧ 5 * bitrateAt false (0 + 1) ≤ 3 * bitrateAt false 0 :=
  ⟨by decide, (bitrate_schedule false encAllCrash).2.2.2.2 0 (by decide)⟩

/-- C3 (counterexample).  The claim states the planner returns exactly
`floor(sourceW * maxEdge / max(sourceW, sourceH))`, mapping the longer edge
exactly to `maxEdge`.  For a 49×49 source the double-precision evaluation
`int(49 * (512 / 49))` yields 511, one below `floor(49 * 512 / 49) = 512`. -/
theorem planner_not_exact_floor_at_49 :
    imageTargetDims false 49 49 = (511, 511) ∧
    49 * MAX_IMAGE_SIZE / max 49 49 = 512 ∧
    ¬ (imageTargetDims false 49 49 =
        (49 * MAX_IMAGE_SIZE / max 49 49, 49 * MAX_IMAGE_SIZE / max 49 49)) := by decide

/-- C3 (amended).  For positive sources with edges at most `2^40`, each
planned image dimension equals `floor(source * 512 / max(sourceW, sourceH))`
or falls exactly one pixel short of it (double rounding); Scenario A
(1000×500 → (512, 256)) holds exactly. -/
theorem planner_floor_within_one (w h : Nat) (hw : 0 < w) (hh : 0 < h)
    (hbound : max w h ≤ 2 ^ 40) :
    (imageTargetDims false w h).1 ≤ w * 512 / max w h ∧
    w * 512 / max w h ≤ (imageTargetDims false w h).1 + 1 ∧
    (imageTargetDims false w h).2 ≤ h * 512 / max w h ∧
    h * 512 / max w h ≤ (imageTargetDims false w h).2 + 1 ∧
    imageTargetDims false 1000 500 = (512, 256) := by
  have h1 := scaledDim_floor_bounds w (max w h) hw (le_max_left _ _) hbound
  have h2 := scaledDim_floor_bounds h (max w h) hh (le_max_right _ _) hbound
  exact ⟨h1.1, h1.2, h2.1, h2.2, by decide⟩

/-- C3 (witness). -/
theorem planner_floor_within_one_witness :
    (0 : Nat) < 1000 ∧ (0 : Nat) < 500 ∧ max 1000 500 ≤ 2 ^ 40 ∧
    imageTargetDims false 1000 500 = (512, 256) :=
  ⟨by decide, by decide, by decide,
    (planner_floor_within_one 1000 500 (by decide) (by decide) (by decide)).2.2.2.2⟩

/-- C4.  For every video conversion of a valid source (both roles), both
planned target dimensions are even: the regular path rounds each dimension
up to the next even integer, and the icon path uses the even constant 100.
Images skip the rounding step: the 1000×999 source yields the odd
height 511. -/
theorem video_dims_even (is_icon : Bool) (w h : Nat) (hw : 0 < w) (hh : 0 < h) :
    ((videoTargetDims is_icon w h).1 % 2 = 0 ∧ (videoTargetDims is_icon w h).2 % 2 = 0) ∧
    imageTargetDims false 1000 999 = (512, 511) := by
  refine ⟨?_, by decide⟩
  cases is_icon
  · exact ⟨roundUpEven_even _, roundUpEven_even _⟩
  · exact ⟨by simp [videoTargetDims, ICON_SIZE], by simp [videoTargetDims, ICON_SIZE]⟩

/-- C4 (witness). -/
theorem video_dims_even_witness :
    (0 : Nat) < 1000 ∧ (0 : Nat) < 500 ∧
    ((videoTargetDims false 1000 500).1 % 2 = 0 ∧
     (videoTargetDims false 1000 500).2 % 2 = 0) :=
  ⟨by decide, by decide, (video_dims_even false 1000 500 (by decide) (by decide)).1⟩

/-- C5 (counterexample).  The claim states that any failing probe invocation
(including a process error) yields the default (1280, 720).  But the exit
status is never examined: a probe that exits non-zero while printing
parseable output has its output used. -/
theorem probe_nonzero_exit_uses_output :
    (ProcResult.mk 1 ("640,480".toList)).exitCode ≠ 0 ∧
    probeDimensions (ProcResult.mk 1 ("640,480".toList)) = (640, 480) ∧
    probeDimensions (ProcResult.mk 1 ("640,480".toList)) ≠ (1280, 720) := by decide

/-- C5 (amended).  Whenever parsing the probe's standard output fails
(malformed output, missing fields, non-numeric values), `probeDimensions`
returns exactly (1280, 720); in `convert_video` this substitution replaces
error propagation, so the conversion proceeds.  A process error alone does
not trigger the default when the output still parses. -/
theorem probe_default_on_parse_failure (res : ProcResult)
    (hfail : parseDims res.stdout = none) :
    probeDimensions res = (1280, 720) := by
  unfold probeDimensions
  rw [hfail]
  rfl

/-- C5 (witness). -/
theorem probe_default_on_parse_failure_witness :
    parseDims ("".toList) = none ∧
    probeDimensions (ProcResult.mk 1 ("".toList)) = (1280, 720) :=
  ⟨by decide, probe_default_on_parse_failure (ProcResult.mk 1 ("".toList)) (by decide)⟩

/-- C6.  If the encoder process exits with a non-zero status on the attempt
the loop reaches (all earlier attempts having produced oversized artifacts),
the whole operation aborts immediately: `convert_video` reports failure and
no further (lower) bitrate is tried — the invocations are exactly the first
`j + 1` scheduled bitrates. -/
theorem encoder_error_aborts (is_icon : Bool) (enc : Nat → Option Nat) (j : Nat)
    (hj : j ≤ 4)
    (hover : ∀ i, i < j → ∃ s, enc (bitrateAt is_icon i) = some s ∧
      maxOutputBytes is_icon < s)
    (hcrash : enc (bitrateAt is_icon j) = none) :
    convert_video is_icon enc = false ∧
    (convRun is_icon enc).tried = (List.range (j + 1)).map (bitrateAt is_icon) ∧
    (convRun is_icon enc).tried.length = j + 1 := by
  have h := convLoop_crash enc (maxOutputBytes is_icon) j 4 (initialBitrate is_icon)
    hj hover hcrash
  have hrun : convRun is_icon enc =
      { tried := (List.range (j + 1)).map (bitrateAt is_icon),
        crashed := true, lastSize := 0 } := h
  refine ⟨?_, ?_, ?_⟩
  · simp [convert_video, hrun]
  · rw [hrun]
  · rw [hrun]
    simp

/-- C6 (witness): a regular-role run whose first attempt is oversized and
whose second attempt's encoder invocation fails: the operation stops after
the 2nd attempt. -/
theorem encoder_error_aborts_witness :
    (1 : Nat) ≤ 4 ∧ encErrSecond (bitrateAt false 1) = none ∧
    convert_video false encErrSecond = false ∧
    (convRun false encErrSecond).tried.length = 2 := by
  have hover : ∀ i, i < 1 → ∃ s, encErrSecond (bitrateAt false i) = some s ∧
      maxOutputBytes false < s := by
    intro i hi
    have hi0 : i = 0 := by omega
    subst hi0
    exact ⟨300000, by decide, by decide⟩
  refine ⟨by decide, by decide, ?_, ?_⟩
  · exact (encoder_error_aborts false encErrSecond 1 (by decide) hover (by decide)).1
  · have h := (encoder_error_aborts false encErrSecond 1 (by decide) hover (by decide)).2.2
    simpa using h

/-- C7.  With the icon role selected, both planners return exactly
`(ICON_SIZE, ICON_SIZE) = (100, 100)`, regardless of the source's dimensions
or aspect ratio. -/
theorem icon_fixed_square (w h : Nat) :
    ICON_SIZE = 100 ∧ imageTargetDims true w h = (ICON_SIZE, ICON_SIZE) ∧
    videoTargetDims true w h = (ICON_SIZE, ICON_SIZE) :=
  ⟨rfl, rfl, rfl⟩

/-- C8.  The orchestrator contains every failure at the single-asset
boundary: the batch result is a per-asset `filterMap` (each asset
contributes independently of every other asset's outcome), and an asset
whose renderer raises or returns `False` contributes nothing while the
surrounding assets are processed exactly as they would be without it. -/
theorem batch_failure_containment :
    (∀ assets : List (String × Except String Bool),
      processing_thread assets = assets.filterMap (fun a =>
        match a.2 with
        | Except.ok true => some a.1
        | _ => none)) ∧
    (∀ (pre suf : List (String × Except String Bool)) (name e : String),
      processing_thread (pre ++ (name, Except.error e) :: suf) =
        processing_thread pre ++ processing_thread suf) ∧
    (∀ (pre suf : List (String × Except String Bool)) (name : String),
      processing_thread (pre ++ (name, Except.ok false) :: suf) =
        processing_thread pre ++ processing_thread suf) := by
  refine ⟨processing_thread_eq, ?_, ?_⟩
  · intro pre suf name e
    rw [processing_thread_eq, processing_thread_eq, processing_thread_eq]
    simp
  · intro pre suf name
    rw [processing_thread_eq, processing_thread_eq, processing_thread_eq]
    simp

/-- C9.  The probe step ignores the inspection process's exit status: the
result depends only on standard output; whenever the output parses as two
comma-separated integers those values are used (even on a non-zero exit,
e.g. exit code 1 with output "640,480"), and the default is substituted
only when parsing fails. -/
theorem probe_ignores_exit_status :
    (∀ (c₁ c₂ : Int) (out : List Char),
      probeDimensions ⟨c₁, out⟩ = probeDimensions ⟨c₂, out⟩) ∧
    (∀ (res : ProcResult) (w h : Int),
      parseDims res.stdout = some (w, h) → probeDimensions res = (w, h)) ∧
    probeDimensions ⟨1, "640,480".toList⟩ = (640, 480) := by
  refine ⟨fun c₁ c₂ out => rfl, ?_, by decide⟩
  intro res w h hparse
  unfold probeDimensions
  rw [hparse]
  rfl

/-- C9 (witness). -/
theorem probe_ignores_exit_status_witness :
    parseDims (ProcResult.mk 1 ("640,480".toList)).stdout = some (640, 480) ∧
    probeDimensions (ProcResult.mk 1 ("640,480".toList)) = (640, 480) :=
  ⟨by decide, probe_ignores_exit_status.2.1 (ProcResult.mk 1 ("640,480".toList))
    640 480 (by decide)⟩

/-- C10.  For every regular (non-icon) video conversion with positive source
dimensions, both scaled dimensions are at most 512 before even-rounding, and
since 512 is even the round-up step never pushes a dimension past
`MAX_IMAGE_SIZE = 512`. -/
theorem video_dims_le_max (w h : Nat) (hw : 0 < w) (hh : 0 < h) :
    scaledDim w (max w h) ≤ MAX_IMAGE_SIZE ∧ scaledDim h (max w h) ≤ MAX_IMAGE_SIZE ∧
    (videoTargetDims false w h).1 ≤ MAX_IMAGE_SIZE ∧
    (videoTargetDims false w h).2 ≤ MAX_IMAGE_SIZE := by
  have h1 := scaledDim_le_512 w (max w h) hw (le_max_left _ _)
  have h2 := scaledDim_le_512 h (max w h) hh (le_max_right _ _)
  exact ⟨h1, h2, roundUpEven_le _ h1, roundUpEven_le _ h2⟩

/-- C10 (witness). -/
theorem video_dims_le_max_witness :
    (0 : Nat) < 1000 ∧ (0 : Nat) < 500 ∧
    (videoTargetDims false 1000 500).1 ≤ MAX_IMAGE_SIZE ∧
    (videoTargetDims false 1000 500).2 ≤ MAX_IMAGE_SIZE :=
  ⟨by decide, by decide, (video_dims_le_max 1000 500 (by decide) (by decide)).2.2⟩

end TeleSticker
